import Mathlib

/-!
Shallow embedding of the repository's polling / pub-sub / auth / storage core.

The `Ellis` namespace embeds `ellis/pubsub.py`, `ellis/auth.py` and
`ellis/feed.py`; the `Alf` namespace embeds
`alf/src/classifieds/storage.py`.  Impure inputs (wall-clock time, the
outcome of a client's `authenticate()` or `get_markets()` call, the parsed
contents of a destination file) are passed explicitly as parameters, so
every definition is an executable function of its inputs.
-/

namespace Ellis

/-- A market outcome, from `ellis/models.py` (only the field the feed loop
touches, `currency`, is relevant here; other payload fields are opaque and
collapsed into `label`). -/
structure Outcome where
  label : String
  currency : String
deriving DecidableEq

/-- A market snapshot item, from `ellis/models.py`: the feed loop stamps
`currency` on the market and each of its outcomes; all other fields are
opaque and collapsed into `label`. -/
structure Market where
  label : String
  currency : String
  outcomes : List Outcome
deriving DecidableEq

/-- Payload carried by a bus event (`data : Any` in `ellis/pubsub.py`):
either absent (`data=None`), a list of markets (odds topics), or the
`{"error": msg}` dict published on `feed.error.*` topics. -/
inductive Payload where
  | nothing : Payload
  | markets (ms : List Market) : Payload
  | errorBox (msg : String) : Payload
deriving DecidableEq

/-- Backtracking search used for `*`: try to match the rest of the
pattern (`f`) against every suffix of the remaining text. -/
def starLoop (f : List Char → Bool) : List Char → Bool
  | [] => f []
  | c :: cs => f (c :: cs) || starLoop f cs

/-- `fnmatch` glob matching over explicit character lists, as used by
`Subscription.matches` in `ellis/pubsub.py` (`fnmatch.fnmatch(topic,
pattern)` on POSIX, where case normalisation is the identity): `*` matches
any run of characters, `?` matches exactly one character, any other
character matches itself.  No pattern in the repository uses `[...]`
character classes, so they are not modelled. -/
def globMatch : List Char → List Char → Bool
  | [], s => s.isEmpty
  | '*' :: ps, s => starLoop (globMatch ps) s
  | '?' :: _, [] => false
  | '?' :: ps, _ :: cs => globMatch ps cs
  | _ :: _, [] => false
  | p :: ps, c :: cs => p == c && globMatch ps cs

/-- `fnmatch.fnmatch(name, pat)` on strings. -/
def fnmatch (name pat : String) : Bool :=
  globMatch pat.data name.data

/-- Log record produced by `EventBus._invoke` when a handler raises:
the log line names the event topic and the subscription id. -/
structure LogEntry where
  topic : String
  subId : String
  msg : String
deriving DecidableEq

/-- `Event` from `ellis/pubsub.py`. -/
structure Event where
  topic : String
  exchange : String
  data : Payload
  timestamp : Int

/-- `Subscription` from `ellis/pubsub.py`.  A handler either returns
normally (`Except.ok`) or raises (`Except.error msg`). -/
structure Subscription where
  id : String
  pattern : String
  handler : Event → Except String Unit

/-- `Subscription.matches` from `ellis/pubsub.py`. -/
def Subscription.matches (s : Subscription) (topic : String) : Bool :=
  fnmatch topic s.pattern

/-- The matching snapshot taken under the bus lock in `EventBus.publish`:
`[s for s in self._subs if s.matches(topic)]`. -/
def publishMatched (subs : List Subscription) (topic : String) : List Subscription :=
  subs.filter fun s => s.matches topic

/-- `EventBus._invoke`: call the handler; if it raises, return the log
entry (handler errors are swallowed, never re-raised). -/
def EventBus.invoke (sub : Subscription) (e : Event) : Option LogEntry :=
  match sub.handler e with
  | .ok _ => none
  | .error msg => some { topic := e.topic, subId := sub.id, msg := msg }

/-- `EventBus.publish` (synchronous dispatch path): build the event, take
the matching snapshot, invoke every matched handler in order.  The result
records, per matched subscription, the optional handler-failure log entry;
publish itself is a total function — a handler failure never propagates. -/
def EventBus.publish (subs : List Subscription) (topic exchange : String)
    (data : Payload) (now : Int) : List (Subscription × Option LogEntry) :=
  (publishMatched subs topic).map fun s =>
    (s, EventBus.invoke s { topic := topic, exchange := exchange, data := data, timestamp := now })

/-- `AuthStatus` from `ellis/auth.py`. -/
inductive AuthStatus where
  | PENDING
  | SUCCESS
  | FAILED
  | EXPIRED
deriving DecidableEq

/-- `AuthResult` from `ellis/auth.py` (timestamps as integers). -/
structure AuthResult where
  exchange : String
  status : AuthStatus
  authenticated_at : Option Int := none
  error : Option String := none
deriving DecidableEq

/-- `AuthResult.ok` property. -/
def AuthResult.ok (r : AuthResult) : Bool :=
  r.status == AuthStatus.SUCCESS

/-- `AuthManager._is_expired`: false when `authenticated_at` is unset,
otherwise `now - authenticated_at >= token_ttl`. -/
def isExpired (ttl now : Int) (r : AuthResult) : Bool :=
  match r.authenticated_at with
  | none => false
  | some t => decide (now - t ≥ ttl)

/-- `AuthManager._needs_auth`. -/
def needsAuth (ttl now : Int) (r : AuthResult) : Bool :=
  match r.status with
  | .PENDING => true
  | .FAILED => true
  | .EXPIRED => true
  | .SUCCESS => isExpired ttl now r

/-- The staleness test in `AuthManager.refresh_expired`:
`status in (EXPIRED, FAILED, PENDING) or _is_expired(result)`. -/
def staleTest (ttl now : Int) (r : AuthResult) : Bool :=
  (r.status == AuthStatus.EXPIRED || r.status == AuthStatus.FAILED
    || r.status == AuthStatus.PENDING) || isExpired ttl now r

/-- `AuthManager._mark_expired`: every SUCCESS record past the ttl is
replaced in place by an EXPIRED record that keeps `authenticated_at`
(`error` defaults to `None` in the replacement). -/
def markExpired (ttl now : Int) (results : List (String × AuthResult)) :
    List (String × AuthResult) :=
  results.map fun p =>
    if p.2.status == AuthStatus.SUCCESS && isExpired ttl now p.2 then
      (p.1, { exchange := p.1, status := AuthStatus.EXPIRED,
              authenticated_at := p.2.authenticated_at, error := none })
    else p

/-- `AuthManager._auth_one`: run one `authenticate()` call, catching all
exceptions.  The client's behaviour is an explicit input: `.ok b` models a
normal return of `b`, `.error e` models a raised exception whose formatted
message is `e`. -/
def authOne (name : String) (beh : Except String Bool) (now : Int) : AuthResult :=
  match beh with
  | .ok true =>
      { exchange := name, status := AuthStatus.SUCCESS, authenticated_at := some now }
  | .ok false =>
      { exchange := name, status := AuthStatus.FAILED,
        error := some "authenticate() returned False" }
  | .error e =>
      { exchange := name, status := AuthStatus.FAILED, error := some e }

/-- Auth-manager state: the ttl and the `_results` table.  The keys of
`_results` are exactly the keys of `_clients` (both are built from the
same constructor argument and the key set never changes), so `_results`
alone carries the state and the clients' behaviour is passed as a
function from name to `authenticate()` outcome. -/
structure AuthState where
  token_ttl : Int
  results : List (String × AuthResult)

/-- `AuthManager.authenticate_all`: select the targets (every client
unless `force`, else those with `_needs_auth`); if none, return the state
unchanged; otherwise run `_auth_one` for each target and store its result
under the target's key (the pool join barrier makes the written-back map
equal to this pure update).  Also returns the list of client names whose
`authenticate()` was invoked. -/
def authenticateAll (force : Bool) (beh : String → Except String Bool)
    (st : AuthState) (now : Int) : AuthState × List String :=
  let targets := st.results.filter fun p => force || needsAuth st.token_ttl now p.2
  if targets.isEmpty then (st, [])
  else
    ({ st with results := st.results.map fun p =>
        if force || needsAuth st.token_ttl now p.2 then (p.1, authOne p.1 (beh p.1) now)
        else p },
     targets.map Prod.fst)

/-- `AuthManager.refresh_expired`: if no session is stale, return the
results unchanged (no `authenticate()` invoked); otherwise delegate to
`authenticate_all(force=False)`. -/
def refreshExpired (beh : String → Except String Bool) (st : AuthState) (now : Int) :
    AuthState × List String :=
  if (st.results.filter fun p => staleTest st.token_ttl now p.2).isEmpty then (st, [])
  else authenticateAll false beh st now

/-- `AuthManager.authenticated_clients`: run the `_mark_expired` sweep,
then return the sources whose (post-sweep) status is SUCCESS.  The Python
method maps each such name to `self._clients[name]`; since `_clients` is
a fixed injective table keyed like `_results`, the returned map is fully
determined by its key list, which is what we return. -/
def authenticatedClients (st : AuthState) (now : Int) : AuthState × List String :=
  let results := markExpired st.token_ttl now st.results
  ({ st with results := results },
   (results.filter fun p => p.2.status == AuthStatus.SUCCESS).map Prod.fst)

/-- One bus-publish call as observable from the feed loop: topic,
exchange tag and payload (`EventBus.publish` stamps the timestamp). -/
structure PubCall where
  topic : String
  exchange : String
  data : Payload
deriving DecidableEq

/-- `OddsFeed._poll` stamps the feed's currency onto every market and
every outcome before publishing. -/
def stampCurrency (currency : String) (ms : List Market) : List Market :=
  ms.map fun m =>
    { m with currency := currency,
             outcomes := m.outcomes.map fun o => { o with currency := currency } }

/-- The environment of one poll cycle: the client's `is_authenticated`
flag at cycle start, this feed's entry of the map returned by
`auth_manager.refresh_expired()` (consulted only when the flag is false),
and the outcome of `client.get_markets(...)` (`.error e` models a raised
exception with message `e`). -/
structure CycleEnv where
  is_authenticated : Bool
  reauth : AuthResult
  markets : Except String (List Market)

/-- `OddsFeed._poll` up to its final publish: if the session is invalid,
refresh; if this source is still not SUCCESS, raise
`"re-auth failed: <error>"` (Python formats a `None` error as `"None"`);
then fetch markets (which may raise) and stamp the currency.  `.ok ms`
means the cycle succeeds and publishes `odds.<name>` with payload `ms`. -/
def pollOnce (currency : String) (env : CycleEnv) : Except String (List Market) :=
  if env.is_authenticated then
    env.markets.map (stampCurrency currency)
  else if env.reauth.ok then
    env.markets.map (stampCurrency currency)
  else
    .error ("re-auth failed: " ++ env.reauth.error.getD "None")

/-- One iteration of `OddsFeed._loop` (the `try/except` body): on success
`_poll` publishes `odds.<name>`, and if this was the first successful
cycle the loop additionally publishes `feed.started.<name>` and clears
`first_run`; on any exception the loop publishes `feed.error.<name>` with
payload `{"error": str(exc)}` and `first_run` is unchanged.  Returns the
bus calls of the cycle and the new `first_run` flag. -/
def cycleEvents (name currency : String) (firstRun : Bool) (env : CycleEnv) :
    List PubCall × Bool :=
  match pollOnce currency env with
  | .ok ms =>
      (⟨"odds." ++ name, name, Payload.markets ms⟩ ::
        (if firstRun then [⟨"feed.started." ++ name, name, Payload.nothing⟩] else []),
       false)
  | .error e =>
      ([⟨"feed.error." ++ name, name, Payload.errorBox e⟩], firstRun)

/-- `OddsFeed._loop` over a finite episode: the list of cycle
environments is the sequence of cycles run between `start()` and the
stop signal; every cycle runs regardless of earlier failures.
`first_run` starts true when the worker is spawned by `start()`. -/
def loopRun (name currency : String) : Bool → List CycleEnv → List PubCall
  | _, [] => []
  | firstRun, env :: rest =>
      let step := cycleEvents name currency firstRun env
      step.1 ++ loopRun name currency step.2 rest

/-- The mutable state of an `OddsFeed` that `stop()` touches: the stop
event flag and worker liveness. -/
structure FeedState where
  stop_event : Bool
  thread_alive : Bool
deriving DecidableEq

/-- `OddsFeed.stop`: set the stop event, join the worker (which exits at
its next wait boundary, so it is no longer alive), and publish
`feed.stopped.<name>` — on every call, unconditionally. -/
def OddsFeed.stop (name : String) (st : FeedState) : FeedState × List PubCall :=
  ({ st with stop_event := true, thread_alive := false },
   [⟨"feed.stopped." ++ name, name, Payload.nothing⟩])

end Ellis

namespace Alf

/-- A record as stored in a destination file (a parsed JSON object):
`id` is `r.get("id")` — `none` when the object has no `"id"` key — and
the remaining fields are opaque string pairs. -/
structure StoredRecord where
  id : Option String
  fields : List (String × String)
deriving DecidableEq

/-- Modelled from the spec: `ClassifiedListing`
(`src/classifieds/models.py` is not in the source tree; only
`storage.py`'s uses of `.id`, `.storage_path_parts` and `.to_dict()` are
visible).  Per spec §3 a record carries a stable string identity key and
a destination key of ordered path segments; per §6 the destination file
layout is `<root>/classifieds/<manufacturer>/<model>/<date>/listings.json`
and the identity key is serialised under the `"id"` field of the record
object.  Other payload fields are opaque. -/
structure ClassifiedListing where
  id : String
  manufacturer : String
  model : String
  date : String
  fields : List (String × String)
deriving DecidableEq

/-- Modelled from the spec: `ClassifiedListing.storage_path_parts`
(`(manufacturer, model, date)` as used by `_resolve_path`). -/
def ClassifiedListing.storage_path_parts (l : ClassifiedListing) :
    String × String × String :=
  (l.manufacturer, l.model, l.date)

/-- Modelled from the spec: `ClassifiedListing.to_dict` serialises the
record with its identity key under `"id"`. -/
def ClassifiedListing.to_dict (l : ClassifiedListing) : StoredRecord :=
  { id := some l.id, fields := l.fields }

/-- `ClassifiedStorage._resolve_path`: the destination path as its
ordered segments
`data_dir / "classifieds" / manufacturer / model / date / "listings.json"`. -/
def resolve_path (dataDir : String) (l : ClassifiedListing) : List String :=
  let parts := l.storage_path_parts
  [dataDir, "classifieds", parts.1, parts.2.1, parts.2.2, "listings.json"]

/-- The filesystem as seen by the store: each destination path is either
absent (`none`) or holds a parsed JSON array of records.  A file whose
parse fails is treated as empty by `_merge_and_write`, which here is
folded into the parsed view. -/
def FileSys := List String → Option (List StoredRecord)

/-- The `existing` list read by `_merge_and_write`: an absent file reads
as the empty array. -/
def readExisting (fs : FileSys) (path : List String) : List StoredRecord :=
  (fs path).getD []

/-- The `new_dicts` computation of `_merge_and_write`: drop every listing
whose `id` is already among the existing records' `"id"` values, and
serialise the survivors. -/
def mergeNew (existing : List StoredRecord) (listings : List ClassifiedListing) :
    List StoredRecord :=
  (listings.filter fun l => !(existing.map StoredRecord.id).contains (some l.id)).map
    ClassifiedListing.to_dict

/-- `ClassifiedStorage._merge_and_write` (pure content part): returns the
destination file's contents after the call and the count of records
written (`0` with no write when nothing new remains). -/
def merge_and_write (existing : List StoredRecord) (listings : List ClassifiedListing) :
    List StoredRecord × Nat :=
  let nd := mergeNew existing listings
  if nd.isEmpty then (existing, 0) else (existing ++ nd, nd.length)

/-- The group of incoming listings routed to one destination path
(`groups` in `ClassifiedStorage.save` preserves input order per path). -/
def routed (dataDir : String) (listings : List ClassifiedListing) (path : List String) :
    List ClassifiedListing :=
  listings.filter fun l => resolve_path dataDir l == path

/-- Destination paths of the input in first-occurrence order — the
iteration order of the `groups` dict in `ClassifiedStorage.save`
(`setdefault` inserts a key the first time it is seen). -/
def groupPaths (paths : List (List String)) : List (List String) :=
  paths.foldl (fun acc p => if acc.contains p then acc else acc ++ [p]) []

/-- `ClassifiedStorage.save`, filesystem part: the contents of every
destination after the call.  A path receiving no listings is untouched;
a path whose group yields nothing new is not written (it keeps its prior
contents, or stays absent). -/
def saveFS (dataDir : String) (fs : FileSys) (listings : List ClassifiedListing) :
    FileSys :=
  fun path =>
    let group := routed dataDir listings path
    if group.isEmpty then fs path
    else
      let existing := readExisting fs path
      let nd := mergeNew existing group
      if nd.isEmpty then fs path else some (existing ++ nd)

/-- `ClassifiedStorage.save`, return value: the total count of records
written across all groups. -/
def saveCount (dataDir : String) (fs : FileSys) (listings : List ClassifiedListing) : Nat :=
  ((groupPaths (listings.map (resolve_path dataDir))).map fun path =>
    (merge_and_write (readExisting fs path) (routed dataDir listings path)).2).sum

/-- A filesystem side effect of `save`, in the order the code performs
them per group: acquire the sibling lock, create parent directories,
read the destination if it exists, write it if anything new remains. -/
inductive FSOp where
  | lockAcquire (path : List String)
  | mkdirParents (path : List String)
  | fileRead (path : List String)
  | fileWrite (path : List String)
deriving DecidableEq

/-- Effects of `_write_group`/`_merge_and_write` for one destination. -/
def writeGroupOps (fs : FileSys) (path : List String)
    (group : List ClassifiedListing) : List FSOp :=
  [FSOp.lockAcquire path, FSOp.mkdirParents path]
    ++ (match fs path with
        | some _ => [FSOp.fileRead path]
        | none => [])
    ++ (if (mergeNew (readExisting fs path) group).isEmpty then []
        else [FSOp.fileWrite path])

/-- `ClassifiedStorage.save`, effect trace: the empty input returns 0
before touching anything; otherwise each group is processed in
first-occurrence order. -/
def saveOps (dataDir : String) (fs : FileSys) (listings : List ClassifiedListing) :
    List FSOp :=
  if listings.isEmpty then []
  else
    (groupPaths (listings.map (resolve_path dataDir))).flatMap fun path =>
      writeGroupOps fs path (routed dataDir listings path)

/-- Identity keys stored at a destination. -/
def idsAt (fs : FileSys) (path : List String) : List (Option String) :=
  (readExisting fs path).map StoredRecord.id

end Alf

namespace Samples

/-- Handler that returns normally. -/
def okHandler : Ellis.Event → Except String Unit := fun _ => Except.ok ()

/-- Handler that raises. -/
def failHandler : Ellis.Event → Except String Unit := fun _ => Except.error "boom"

/-- A wildcard subscription with a well-behaved handler. -/
def subOdds : Ellis.Subscription :=
  { id := "s1", pattern := "odds.*", handler := okHandler }

/-- A wildcard subscription whose handler raises. -/
def subFail : Ellis.Subscription :=
  { id := "s2", pattern := "odds.*", handler := failHandler }

/-- A sample market. -/
def mkt : Ellis.Market :=
  { label := "m1", currency := "XXX", outcomes := [{ label := "o1", currency := "XXX" }] }

/-- A SUCCESS auth record obtained at time 0. -/
def authSuccess : Ellis.AuthResult :=
  { exchange := "src", status := Ellis.AuthStatus.SUCCESS, authenticated_at := some 0 }

/-- A poll-cycle environment in which everything succeeds. -/
def envOk : Ellis.CycleEnv :=
  { is_authenticated := true, reauth := authSuccess, markets := Except.ok [mkt] }

/-- A poll-cycle environment in which `get_markets` raises. -/
def envFail : Ellis.CycleEnv :=
  { is_authenticated := true, reauth := authSuccess, markets := Except.error "boom" }

/-- A sample listing with identity key "A". -/
def listA1 : Alf.ClassifiedListing :=
  { id := "A", manufacturer := "m", model := "x", date := "2024-01-01", fields := [] }

/-- A second, distinct listing with the same identity key "A". -/
def listA2 : Alf.ClassifiedListing :=
  { id := "A", manufacturer := "m", model := "x", date := "2024-01-01",
    fields := [("price", "1")] }

/-- A sample listing with identity key "B". -/
def listB : Alf.ClassifiedListing :=
  { id := "B", manufacturer := "m", model := "x", date := "2024-01-01", fields := [] }

/-- The destination path of the sample listings under data dir "d". -/
def pathMX : List String :=
  ["d", "classifieds", "m", "x", "2024-01-01", "listings.json"]

/-- A filesystem with no destination file present. -/
def emptyFS : Alf.FileSys := fun _ => none

/-- An auth-manager state with one SUCCESS session and ttl 10. -/
def stSample : Ellis.AuthState :=
  { token_ttl := 10, results := [("src", authSuccess)] }

end Samples

/-! ## Theorems -/

section GlobLemmas

/-- `*` alone matches every text. -/
theorem glob_star_any (s : List Char) : Ellis.globMatch ['*'] s = true := by
  induction s with
  | nil => rfl
  | cons c cs ih =>
    simp only [Ellis.globMatch, Ellis.starLoop] at ih ⊢
    simp [ih]

/-- A trailing `*` after the literal prefix `a.` matches any run of
further characters, dots included. -/
theorem glob_trailing_star (s : List Char) :
    Ellis.globMatch "a.*".data ("a.".data ++ s) = true := by
  simp [Ellis.globMatch, Ellis.starLoop, show "a.*".data = ['a', '.', '*'] from rfl,
    show "a.".data = ['a', '.'] from rfl, glob_star_any s]

/-- `?` alone matches exactly the one-character texts. -/
theorem glob_qmark (cs : List Char) :
    Ellis.globMatch ['?'] cs = decide (cs.length = 1) := by
  match cs with
  | [] => rfl
  | c :: cs' => cases cs' <;> simp [Ellis.globMatch]

end GlobLemmas

/-- C2: Topic-pattern matching treats the topic as a single string:
`Subscription.matches` is the glob match of the whole pattern against
the whole topic, `*` matches any run of characters including dots
(in particular any non-empty run), `?` matches exactly one character,
the pattern `*` matches every topic, and `a.*` matches `a.b` and
`a.b.c` but not `b.a`. -/
theorem topic_pattern_matching :
    (∀ (sub : Ellis.Subscription) (t : String),
        sub.matches t = Ellis.globMatch sub.pattern.data t.data)
    ∧ (∀ t : String, Ellis.fnmatch t "*" = true)
    ∧ (∀ s : List Char, Ellis.globMatch "a.*".data ("a.".data ++ s) = true)
    ∧ (∀ cs : List Char, Ellis.globMatch "?".data cs = decide (cs.length = 1))
    ∧ Ellis.fnmatch "a.b" "a.*" = true
    ∧ Ellis.fnmatch "a.b.c" "a.*" = true
    ∧ Ellis.fnmatch "b.a" "a.*" = false :=
  ⟨fun _ _ => rfl, fun t => glob_star_any t.data, glob_trailing_star,
   fun cs => glob_qmark cs, by decide, by decide, by decide⟩

section AuthLemmas

/-- The staleness test of `refresh_expired` agrees pointwise with
`_needs_auth`. -/
theorem staleTest_eq_needsAuth (ttl now : Int) (r : Ellis.AuthResult) :
    Ellis.staleTest ttl now r = Ellis.needsAuth ttl now r := by
  cases h : r.status <;> simp [Ellis.staleTest, Ellis.needsAuth, h]

end AuthLemmas

/-- C4: `refresh_expired()` equals `authenticate_all(force=False)` — both
return the same updated results map and invoke `authenticate()` on the
same clients — and that common invocation set is exactly the stale
sources. -/
theorem refresh_expired_refines_authenticate_all
    (beh : String → Except String Bool) (st : Ellis.AuthState) (now : Int) :
    Ellis.refreshExpired beh st now = Ellis.authenticateAll false beh st now
    ∧ (Ellis.authenticateAll false beh st now).2
        = (st.results.filter fun p => Ellis.staleTest st.token_ttl now p.2).map Prod.fst := by
  have hfe : (st.results.filter fun p => Ellis.staleTest st.token_ttl now p.2)
      = st.results.filter fun p => Ellis.needsAuth st.token_ttl now p.2 := by
    simp only [staleTest_eq_needsAuth]
  constructor
  · simp only [Ellis.refreshExpired, hfe]
    split
    · next h =>
      simp only [Ellis.authenticateAll, Bool.false_or]
      rw [if_pos h]
    · rfl
  · simp only [Ellis.authenticateAll, Bool.false_or, hfe]
    split
    · next h =>
      rw [List.isEmpty_iff.mp h]
      rfl
    · rfl

/-- C9 (amended): `stop()` is idempotent on the feed state — a second
call leaves the state unchanged and performs the same per-call effect —
but each call publishes `feed.stopped.<source>` again, so the cumulative
event trace of two calls is not that of one. -/
theorem stop_state_idempotent (name : String) (st : Ellis.FeedState) :
    Ellis.OddsFeed.stop name (Ellis.OddsFeed.stop name st).1
      = Ellis.OddsFeed.stop name st := rfl

/-- C9 counterexample: after a second `stop()`, the cumulative list of
bus publications differs from that of a single call — `feed.stopped.src`
appears twice. -/
theorem stop_second_call_extra_event :
    ¬ ((Ellis.OddsFeed.stop "src" ⟨false, true⟩).2
        ++ (Ellis.OddsFeed.stop "src" (Ellis.OddsFeed.stop "src" ⟨false, true⟩).1).2
      = (Ellis.OddsFeed.stop "src" ⟨false, true⟩).2) := by decide

/-- C10: `save([])` returns 0, leaves every destination file exactly as
it was, and performs no filesystem operation: no lock acquisition, no
directory creation, no read, no write. -/
theorem save_empty_no_effect (dataDir : String) (fs : Alf.FileSys) :
    Alf.saveOps dataDir fs [] = []
    ∧ Alf.saveFS dataDir fs [] = fs
    ∧ Alf.saveCount dataDir fs [] = 0 :=
  ⟨rfl, funext fun _ => rfl, rfl⟩

/-- C3: for every publish, a subscription present (once) in the bus's
subscription list at snapshot time is delivered the event exactly once
if its pattern matches the topic and zero times otherwise; all invoked
subscriptions come from the snapshot and match the topic. -/
theorem publish_delivers_exactly_once (subs : List Ellis.Subscription)
    (topic exchange : String) (data : Ellis.Payload) (now : Int)
    (s : Ellis.Subscription) (hmem : s ∈ subs)
    (huniq : subs.countP (fun x => x.id == s.id) = 1) :
    (Ellis.publishMatched subs topic).countP (fun x => x.id == s.id)
      = (if s.matches topic then 1 else 0)
    ∧ (Ellis.EventBus.publish subs topic exchange data now).map Prod.fst
        = Ellis.publishMatched subs topic
    ∧ (∀ x ∈ Ellis.publishMatched subs topic, x ∈ subs ∧ x.matches topic = true) := by
  refine ⟨?_, ?_, ?_⟩
  · obtain ⟨l₁, l₂, rfl⟩ := List.append_of_mem hmem
    have hid : (s.id == s.id) = true := by simp
    have hz : l₁.countP (fun x => x.id == s.id) = 0
        ∧ l₂.countP (fun x => x.id == s.id) = 0 := by
      rw [List.countP_append, List.countP_cons] at huniq
      simp only [hid, if_true] at huniq
      omega
    have hf : ∀ l : List Ellis.Subscription,
        l.countP (fun x => x.id == s.id) = 0 →
        (l.filter fun x => x.matches topic).countP (fun x => x.id == s.id) = 0 := by
      intro l hl
      rw [List.countP_filter]
      have hle := List.countP_mono_left
        (l := l) (p := fun a => (a.id == s.id) && a.matches topic)
        (q := fun x => x.id == s.id) (fun x _ hx => (Bool.and_eq_true_iff.mp hx).1)
      omega
    rw [Ellis.publishMatched, List.filter_append, List.countP_append, List.filter_cons]
    by_cases hm : s.matches topic
    · rw [if_pos hm, List.countP_cons]
      simp [hid, hm, hf l₁ hz.1, hf l₂ hz.2]
    · rw [if_neg hm]
      simp [hm, hf l₁ hz.1, hf l₂ hz.2]
  · simp [Ellis.EventBus.publish, List.map_map, Function.comp_def]
  · intro x hx
    rw [Ellis.publishMatched] at hx
    exact List.mem_filter.mp hx

/-- C3 witness: one wildcard subscription receives an `odds.alpha`
publication exactly once. -/
theorem publish_delivers_exactly_once_witness :
    Samples.subOdds ∈ [Samples.subOdds]
    ∧ (Ellis.publishMatched [Samples.subOdds] "odds.alpha").countP
        (fun x => x.id == Samples.subOdds.id) = 1 := by
  have h := publish_delivers_exactly_once [Samples.subOdds] "odds.alpha" "alpha"
      Ellis.Payload.nothing 0 Samples.subOdds (List.mem_singleton.mpr rfl) (by decide)
  refine ⟨List.mem_singleton.mpr rfl, ?_⟩
  rw [h.1, show Samples.subOdds.matches "odds.alpha" = true from by decide]
  simp

/-- C6: every matched subscription is invoked for the event regardless
of other handlers' failures (the publish result covers the whole matched
snapshot and publish is a total function, so no handler exception
reaches the publisher), and a failing handler yields a log entry
carrying the event topic and the subscription id. -/
theorem handler_failure_isolated (subs : List Ellis.Subscription)
    (topic exchange : String) (data : Ellis.Payload) (now : Int)
    (s : Ellis.Subscription) (hmem : s ∈ subs) (hmatch : s.matches topic = true) :
    ((s, Ellis.EventBus.invoke s ⟨topic, exchange, data, now⟩)
        ∈ Ellis.EventBus.publish subs topic exchange data now)
    ∧ (∀ msg, s.handler ⟨topic, exchange, data, now⟩ = Except.error msg →
        Ellis.EventBus.invoke s ⟨topic, exchange, data, now⟩
          = some ⟨topic, s.id, msg⟩)
    ∧ ((Ellis.EventBus.publish subs topic exchange data now).map Prod.fst
        = Ellis.publishMatched subs topic) := by
  refine ⟨?_, ?_, ?_⟩
  · have hs : s ∈ Ellis.publishMatched subs topic :=
      List.mem_filter.mpr ⟨hmem, hmatch⟩
    exact List.mem_map_of_mem _ hs
  · intro msg hmsg
    simp [Ellis.EventBus.invoke, hmsg]
  · simp [Ellis.EventBus.publish, List.map_map, Function.comp_def]

/-- C6 witness: publishing `odds.alpha` to a well-behaved subscription
and a failing one invokes the failing handler and logs its failure with
the topic and its subscription id, while the other handler is also
invoked. -/
theorem handler_failure_isolated_witness :
    ((Samples.subFail, some (⟨"odds.alpha", "s2", "boom"⟩ : Ellis.LogEntry))
        ∈ Ellis.EventBus.publish [Samples.subOdds, Samples.subFail]
            "odds.alpha" "alpha" Ellis.Payload.nothing 0)
    ∧ ((Ellis.EventBus.publish [Samples.subOdds, Samples.subFail]
          "odds.alpha" "alpha" Ellis.Payload.nothing 0).map Prod.fst
        = Ellis.publishMatched [Samples.subOdds, Samples.subFail] "odds.alpha") := by
  have h := handler_failure_isolated [Samples.subOdds, Samples.subFail]
      "odds.alpha" "alpha" Ellis.Payload.nothing 0 Samples.subFail
      (by simp) (by decide)
  have hinv : Ellis.EventBus.invoke Samples.subFail ⟨"odds.alpha", "alpha", Ellis.Payload.nothing, 0⟩
      = some ⟨"odds.alpha", "s2", "boom"⟩ := h.2.1 "boom" rfl
  exact ⟨hinv ▸ h.1, h.2.2⟩

/-- C5: for every auth-manager state whose SUCCESS records carry an
`authenticated_at` (an invariant of the state machine),
`authenticated_clients()` returns exactly the sources whose status is
SUCCESS and whose `authenticated_at + token_ttl > now`; before returning
it rewrites, in place and key-order preserving, every SUCCESS record
whose age has reached `token_ttl` into an EXPIRED record that keeps
`authenticated_at`, and leaves every other record unchanged. -/
theorem authenticated_clients_spec (st : Ellis.AuthState) (now : Int)
    (hinv : ∀ p ∈ st.results, p.2.status = Ellis.AuthStatus.SUCCESS →
        ∃ t, p.2.authenticated_at = some t) :
    (∀ n, n ∈ (Ellis.authenticatedClients st now).2 ↔
        ∃ r t, (n, r) ∈ st.results ∧ r.status = Ellis.AuthStatus.SUCCESS
          ∧ r.authenticated_at = some t ∧ t + st.token_ttl > now)
    ∧ ((Ellis.authenticatedClients st now).1.results.map Prod.fst
        = st.results.map Prod.fst)
    ∧ (∀ n r, (n, r) ∈ st.results →
        (if r.status == Ellis.AuthStatus.SUCCESS && Ellis.isExpired st.token_ttl now r
         then (n, (⟨n, Ellis.AuthStatus.EXPIRED, r.authenticated_at, none⟩ : Ellis.AuthResult))
         else (n, r)) ∈ (Ellis.authenticatedClients st now).1.results) := by
  refine ⟨?_, ?_, ?_⟩
  · intro n
    constructor
    · intro hn
      rw [show (Ellis.authenticatedClients st now).2
          = ((Ellis.markExpired st.token_ttl now st.results).filter
              (fun p => p.2.status == Ellis.AuthStatus.SUCCESS)).map Prod.fst from rfl] at hn
      obtain ⟨q, hq, rfl⟩ := List.mem_map.mp hn
      have hq1 := (List.mem_filter.mp hq).1
      have hq2 := (List.mem_filter.mp hq).2
      rw [Ellis.markExpired] at hq1
      obtain ⟨p, hp, rfl⟩ := List.mem_map.mp hq1
      obtain ⟨pn, pr⟩ := p
      by_cases hc : (pr.status == Ellis.AuthStatus.SUCCESS
          && Ellis.isExpired st.token_ttl now pr) = true
      · rw [if_pos hc] at hq2
        simp at hq2
      · rw [if_neg hc] at hq2 ⊢
        have hstat : pr.status = Ellis.AuthStatus.SUCCESS := by
          simpa using hq2
        obtain ⟨t, ht⟩ := hinv (pn, pr) hp hstat
        have hne : Ellis.isExpired st.token_ttl now pr = false := by
          cases hx : Ellis.isExpired st.token_ttl now pr
          · rfl
          · exact absurd (by simp [hstat, hx]) hc
        have hlt : t + st.token_ttl > now := by
          rw [Ellis.isExpired, ht] at hne
          simp only [decide_eq_false_iff_not, not_le] at hne
          omega
        exact ⟨pr, t, hp, hstat, ht, hlt⟩
    · rintro ⟨r, t, hp, hstat, ht, hlt⟩
      rw [show (Ellis.authenticatedClients st now).2
          = ((Ellis.markExpired st.token_ttl now st.results).filter
              (fun p => p.2.status == Ellis.AuthStatus.SUCCESS)).map Prod.fst from rfl]
      have hne : Ellis.isExpired st.token_ttl now r = false := by
        rw [Ellis.isExpired, ht]
        simp only [decide_eq_false_iff_not, not_le]
        omega
      refine List.mem_map.mpr ⟨(n, r), List.mem_filter.mpr ⟨?_, by simp [hstat]⟩, rfl⟩
      rw [Ellis.markExpired]
      refine List.mem_map.mpr ⟨(n, r), hp, ?_⟩
      simp [hne]
  · rw [show (Ellis.authenticatedClients st now).1.results
        = Ellis.markExpired st.token_ttl now st.results from rfl, Ellis.markExpired,
      List.map_map]
    refine List.map_congr_left fun p _ => ?_
    by_cases hc : (p.2.status == Ellis.AuthStatus.SUCCESS
        && Ellis.isExpired st.token_ttl now p.2) = true
    · simp [Function.comp, hc]
    · simp [Function.comp, hc]
  · intro n r hp
    exact List.mem_map_of_mem _ hp

/-- C5 witness: with ttl 10, a session authenticated at 0 is returned at
time 5. -/
theorem authenticated_clients_witness :
    "src" ∈ (Ellis.authenticatedClients Samples.stSample 5).2 := by
  refine ((authenticated_clients_spec Samples.stSample 5 ?_).1 "src").mpr ?_
  · intro p hp _
    rw [List.mem_singleton.mp hp]
    exact ⟨0, rfl⟩
  · exact ⟨Samples.authSuccess, 0, List.mem_singleton.mpr rfl, rfl, rfl, by decide⟩

section TopicLemmas

/-- Two string concatenations are distinct whenever their left parts
disagree at some character position inside both. -/
theorem append_ne_of_getElem (p q n m : String) (i : Nat)
    (hip : i < p.data.length) (hiq : i < q.data.length)
    (h : p.data[i]? ≠ q.data[i]?) : p ++ n ≠ q ++ m := by
  intro hEq
  apply h
  have hd := congrArg String.data hEq
  rw [String.data_append, String.data_append] at hd
  have hi := congrArg (fun l => l[i]?) hd
  simpa [List.getElem?_append_left hip, List.getElem?_append_left hiq] using hi

end TopicLemmas

/-- C7: a poll cycle in which any exception is raised — re-auth failure
or `get_markets` raising — publishes exactly `feed.error.<source>` with
payload `{"error": message}` and nothing else (in particular no
`odds.<source>` event); an `odds.<source>` event is published exactly
when the cycle succeeds; and the loop always continues to the next cycle
after a cycle, failed or not. -/
theorem poll_cycle_failure_semantics (name currency : String) :
    (∀ (firstRun : Bool) (env : Ellis.CycleEnv) (e : String),
        Ellis.pollOnce currency env = Except.error e →
          Ellis.cycleEvents name currency firstRun env
            = ([⟨"feed.error." ++ name, name, Ellis.Payload.errorBox e⟩], firstRun))
    ∧ (∀ (firstRun : Bool) (env : Ellis.CycleEnv),
        (∃ pc ∈ (Ellis.cycleEvents name currency firstRun env).1,
            pc.topic = "odds." ++ name)
          ↔ ∃ ms, Ellis.pollOnce currency env = Except.ok ms)
    ∧ (∀ (firstRun : Bool) (env : Ellis.CycleEnv) (rest : List Ellis.CycleEnv),
        Ellis.loopRun name currency firstRun (env :: rest)
          = (Ellis.cycleEvents name currency firstRun env).1
            ++ Ellis.loopRun name currency
                (Ellis.cycleEvents name currency firstRun env).2 rest) := by
  have hne : ("feed.error." ++ name : String) ≠ "odds." ++ name :=
    append_ne_of_getElem _ _ _ _ 0 (by decide) (by decide) (by decide)
  refine ⟨?_, ?_, ?_⟩
  · intro firstRun env e he
    simp [Ellis.cycleEvents, he]
  · intro firstRun env
    cases hp : Ellis.pollOnce currency env with
    | ok ms =>
      constructor
      · intro _
        exact ⟨ms, rfl⟩
      · intro _
        refine ⟨⟨"odds." ++ name, name, Ellis.Payload.markets ms⟩, ?_, rfl⟩
        simp [Ellis.cycleEvents, hp]
    | error e =>
      constructor
      · rintro ⟨pc, hpc, htop⟩
        rw [show Ellis.cycleEvents name currency firstRun env
            = ([⟨"feed.error." ++ name, name, Ellis.Payload.errorBox e⟩], firstRun) from by
              simp [Ellis.cycleEvents, hp]] at hpc
        simp at hpc
        rw [hpc] at htop
        exact absurd htop hne
      · rintro ⟨ms, hms⟩
        simp at hms
  · intro firstRun env rest
    rfl

/-- C7 witness: a cycle whose `get_markets` raises "boom" publishes only
the error event and leaves `first_run` unchanged. -/
theorem poll_cycle_failure_witness :
    Ellis.cycleEvents "src" "EUR" true Samples.envFail
      = ([⟨"feed.error." ++ "src", "src", Ellis.Payload.errorBox "boom"⟩], true) :=
  (poll_cycle_failure_semantics "src" "EUR").1 true Samples.envFail "boom" rfl

/-- Once `first_run` is false (a successful poll already happened), the
loop never publishes `feed.started.<name>` again. -/
theorem loopRun_false_no_started (name currency : String) (envs : List Ellis.CycleEnv) :
    ∀ pc ∈ Ellis.loopRun name currency false envs,
      pc.topic ≠ "feed.started." ++ name := by
  have hodds : ("odds." ++ name : String) ≠ "feed.started." ++ name :=
    append_ne_of_getElem _ _ _ _ 0 (by decide) (by decide) (by decide)
  have herr : ("feed.error." ++ name : String) ≠ "feed.started." ++ name :=
    append_ne_of_getElem _ _ _ _ 5 (by decide) (by decide) (by decide)
  induction envs with
  | nil =>
    intro pc hpc
    simp [Ellis.loopRun] at hpc
  | cons env rest ih =>
    intro pc hpc
    rw [show Ellis.loopRun name currency false (env :: rest)
        = (Ellis.cycleEvents name currency false env).1
          ++ Ellis.loopRun name currency (Ellis.cycleEvents name currency false env).2 rest
      from rfl] at hpc
    cases hp : Ellis.pollOnce currency env with
    | ok ms =>
      rw [show Ellis.cycleEvents name currency false env
          = ([⟨"odds." ++ name, name, Ellis.Payload.markets ms⟩], false) from by
            simp [Ellis.cycleEvents, hp]] at hpc
      rcases List.mem_append.mp hpc with h | h
      · simp at h
        rw [h]
        exact hodds
      · exact ih pc h
    | error e =>
      rw [show Ellis.cycleEvents name currency false env
          = ([⟨"feed.error." ++ name, name, Ellis.Payload.errorBox e⟩], false) from by
            simp [Ellis.cycleEvents, hp]] at hpc
      rcases List.mem_append.mp hpc with h | h
      · simp at h
        rw [h]
        exact herr
      · exact ih pc h

/-- C8: over any start-to-stop episode (the loop runs with `first_run`
true), `feed.started.<source>` is published at most once, and wherever it
occurs in the episode's event trace it is preceded by an `odds.<source>`
publication (a successful poll). -/
theorem feed_started_once (name currency : String) (envs : List Ellis.CycleEnv) :
    (Ellis.loopRun name currency true envs).countP
        (fun pc => pc.topic == "feed.started." ++ name) ≤ 1
    ∧ (∀ pre pc suf,
        Ellis.loopRun name currency true envs = pre ++ pc :: suf →
        pc.topic = "feed.started." ++ name →
        ∃ q ∈ pre, q.topic = "odds." ++ name) := by
  have hodds : ("odds." ++ name : String) ≠ "feed.started." ++ name :=
    append_ne_of_getElem _ _ _ _ 0 (by decide) (by decide) (by decide)
  have herr : ("feed.error." ++ name : String) ≠ "feed.started." ++ name :=
    append_ne_of_getElem _ _ _ _ 5 (by decide) (by decide) (by decide)
  induction envs with
  | nil =>
    refine ⟨by simp [Ellis.loopRun], ?_⟩
    intro pre pc suf h _
    rw [Ellis.loopRun] at h
    exact absurd h.symm (List.append_ne_nil_of_right_ne_nil pre (List.cons_ne_nil pc suf))
  | cons env rest ih =>
    cases hp : Ellis.pollOnce currency env with
    | error e =>
      have hstep : Ellis.cycleEvents name currency true env
          = ([⟨"feed.error." ++ name, name, Ellis.Payload.errorBox e⟩], true) := by
        simp [Ellis.cycleEvents, hp]
      have hL : Ellis.loopRun name currency true (env :: rest)
          = ⟨"feed.error." ++ name, name, Ellis.Payload.errorBox e⟩
            :: Ellis.loopRun name currency true rest := by
        rw [show Ellis.loopRun name currency true (env :: rest)
            = (Ellis.cycleEvents name currency true env).1
              ++ Ellis.loopRun name currency (Ellis.cycleEvents name currency true env).2 rest
          from rfl, hstep]
        rfl
      constructor
      · have hfa : ((⟨"feed.error." ++ name, name, Ellis.Payload.errorBox e⟩ : Ellis.PubCall).topic
            == "feed.started." ++ name) = false := beq_eq_false_iff_ne.mpr herr
        rw [hL, List.countP_cons, hfa]
        simpa using ih.1
      · intro pre pc suf hdec htop
        rw [hL] at hdec
        cases pre with
        | nil =>
          injection hdec with h1 _
          rw [← h1] at htop
          exact absurd htop herr
        | cons a pre₁ =>
          rw [List.cons_append] at hdec
          injection hdec with _ h2
          obtain ⟨q, hq, hqt⟩ := ih.2 pre₁ pc suf h2 htop
          exact ⟨q, List.mem_cons_of_mem a hq, hqt⟩
    | ok ms =>
      have hstep : Ellis.cycleEvents name currency true env
          = ([⟨"odds." ++ name, name, Ellis.Payload.markets ms⟩,
              ⟨"feed.started." ++ name, name, Ellis.Payload.nothing⟩], false) := by
        simp [Ellis.cycleEvents, hp]
      have hL : Ellis.loopRun name currency true (env :: rest)
          = ⟨"odds." ++ name, name, Ellis.Payload.markets ms⟩
            :: ⟨"feed.started." ++ name, name, Ellis.Payload.nothing⟩
            :: Ellis.loopRun name currency false rest := by
        rw [show Ellis.loopRun name currency true (env :: rest)
            = (Ellis.cycleEvents name currency true env).1
              ++ Ellis.loopRun name currency (Ellis.cycleEvents name currency true env).2 rest
          from rfl, hstep]
        rfl
      have hnost := loopRun_false_no_started name currency rest
      constructor
      · have h0 : (Ellis.loopRun name currency false rest).countP
            (fun pc => pc.topic == "feed.started." ++ name) = 0 :=
          List.countP_eq_zero.mpr fun pc hpc h => hnost pc hpc (eq_of_beq h)
        have hoddsb : ((⟨"odds." ++ name, name, Ellis.Payload.markets ms⟩ : Ellis.PubCall).topic
            == "feed.started." ++ name) = false := beq_eq_false_iff_ne.mpr hodds
        rw [hL, List.countP_cons, List.countP_cons, h0, hoddsb]
        simp
      · intro pre pc suf hdec htop
        rw [hL] at hdec
        cases pre with
        | nil =>
          injection hdec with h1 _
          rw [← h1] at htop
          exact absurd htop hodds
        | cons a pre₁ =>
          rw [List.cons_append] at hdec
          injection hdec with h1 h2
          cases pre₁ with
          | nil =>
            refine ⟨a, List.mem_cons_self a [], ?_⟩
            rw [← h1]
          | cons b pre₂ =>
            rw [List.cons_append] at h2
            injection h2 with _ h4
            have hmem : pc ∈ Ellis.loopRun name currency false rest := by
              rw [h4]
              exact List.mem_append_of_mem_right _ (List.mem_cons_self _ _)
            exact absurd htop (hnost pc hmem)

/-- C8 witness: a single successful cycle publishes `feed.started.src`
once, preceded by the `odds.src` snapshot. -/
theorem feed_started_once_witness :
    (Ellis.loopRun "src" "EUR" true [Samples.envOk]).countP
        (fun pc => pc.topic == "feed.started." ++ "src") ≤ 1
    ∧ (∃ q ∈ [(⟨"odds." ++ "src", "src",
          Ellis.Payload.markets (Ellis.stampCurrency "EUR" [Samples.mkt])⟩ : Ellis.PubCall)],
        q.topic = "odds." ++ "src") := by
  have h := feed_started_once "src" "EUR" [Samples.envOk]
  refine ⟨h.1, ?_⟩
  exact h.2
    [⟨"odds." ++ "src", "src", Ellis.Payload.markets (Ellis.stampCurrency "EUR" [Samples.mkt])⟩]
    ⟨"feed.started." ++ "src", "src", Ellis.Payload.nothing⟩ [] (by decide) rfl

section StorageLemmas

/-- Identity keys of the newly written records: the routed listings whose
key is not already present, keyed by `some id`. -/
theorem mergeNew_ids (existing : List Alf.StoredRecord) (group : List Alf.ClassifiedListing) :
    (Alf.mergeNew existing group).map Alf.StoredRecord.id
      = (group.filter fun l =>
          !((existing.map Alf.StoredRecord.id).contains (some l.id))).map fun l => some l.id := by
  rw [Alf.mergeNew, List.map_map]
  rfl

/-- A key is among the newly written records' keys iff some routed
listing carries it and it is not among the existing keys. -/
theorem mem_mergeNew_ids (existing : List Alf.StoredRecord)
    (group : List Alf.ClassifiedListing) (k : Option String) :
    k ∈ (Alf.mergeNew existing group).map Alf.StoredRecord.id ↔
      ((∃ l ∈ group, some l.id = k) ∧ k ∉ existing.map Alf.StoredRecord.id) := by
  rw [mergeNew_ids]
  constructor
  · intro hk
    obtain ⟨l, hl, hlk⟩ := List.mem_map.mp hk
    have hl1 := (List.mem_filter.mp hl).1
    have hl2 := (List.mem_filter.mp hl).2
    have hnc : ¬ some l.id ∈ existing.map Alf.StoredRecord.id := by
      simpa [List.contains] using hl2
    exact ⟨⟨l, hl1, hlk⟩, by rw [← hlk]; exact hnc⟩
  · rintro ⟨⟨l, hl, hlk⟩, hnk⟩
    refine List.mem_map.mpr ⟨l, List.mem_filter.mpr ⟨hl, ?_⟩, hlk⟩
    simp only [List.contains, List.elem_eq_mem, Bool.not_eq_true', decide_eq_false_iff_not]
    rw [hlk]
    exact hnk

/-- The newly written records' keys inherit distinctness from the routed
group's keys. -/
theorem mergeNew_ids_nodup (existing : List Alf.StoredRecord)
    (group : List Alf.ClassifiedListing)
    (hin : (group.map fun l => some l.id).Nodup) :
    ((Alf.mergeNew existing group).map Alf.StoredRecord.id).Nodup := by
  rw [mergeNew_ids]
  exact List.Nodup.sublist ((List.filter_sublist group).map fun l => some l.id) hin

end StorageLemmas

/-- C1 (amended): for every record list R and destination D, after
`save(R)` the set of identity keys stored in D equals — unconditionally —
the prior set unioned with the keys of the records of R routed to D; and,
provided D's prior records have pairwise-distinct identity keys and the
records of R routed to D have pairwise-distinct identity keys, no record
in D is duplicated by identity key afterwards.  (Without those
distinctness premises the no-duplication half fails: `_merge_and_write`
filters incoming records only against the keys already on disk, not
against each other.) -/
theorem save_dedup_amended (dataDir : String) (fs : Alf.FileSys)
    (listings : List Alf.ClassifiedListing) (path : List String) :
    (∀ k, k ∈ Alf.idsAt (Alf.saveFS dataDir fs listings) path ↔
        (k ∈ Alf.idsAt fs path
          ∨ k ∈ (Alf.routed dataDir listings path).map fun l => some l.id))
    ∧ ((Alf.idsAt fs path).Nodup →
        ((Alf.routed dataDir listings path).map fun l => some l.id).Nodup →
        (Alf.idsAt (Alf.saveFS dataDir fs listings) path).Nodup) := by
  by_cases hG : (Alf.routed dataDir listings path).isEmpty = true
  · have hfs : Alf.saveFS dataDir fs listings path = fs path := by
      simp only [Alf.saveFS]
      rw [if_pos hG]
    have hids : Alf.idsAt (Alf.saveFS dataDir fs listings) path = Alf.idsAt fs path := by
      simp [Alf.idsAt, Alf.readExisting, hfs]
    have hGnil : Alf.routed dataDir listings path = [] := List.isEmpty_iff.mp hG
    rw [hids, hGnil]
    refine ⟨fun k => ?_, fun hex _ => hex⟩
    simp
  · by_cases hnd : (Alf.mergeNew (Alf.readExisting fs path)
        (Alf.routed dataDir listings path)).isEmpty = true
    · have hfs : Alf.saveFS dataDir fs listings path = fs path := by
        simp only [Alf.saveFS]
        rw [if_neg hG, if_pos hnd]
      have hids : Alf.idsAt (Alf.saveFS dataDir fs listings) path = Alf.idsAt fs path := by
        simp [Alf.idsAt, Alf.readExisting, hfs]
      have hsub : ∀ l ∈ Alf.routed dataDir listings path,
          some l.id ∈ Alf.idsAt fs path := by
        intro l hl
        have hnil : Alf.mergeNew (Alf.readExisting fs path)
            (Alf.routed dataDir listings path) = [] := List.isEmpty_iff.mp hnd
        rw [Alf.mergeNew] at hnil
        have hfnil := List.map_eq_nil_iff.mp hnil
        have h2 := List.filter_eq_nil_iff.mp hfnil l hl
        rw [Alf.idsAt]
        simpa [List.contains] using h2
      rw [hids]
      refine ⟨fun k => ?_, fun hex _ => hex⟩
      constructor
      · exact Or.inl
      · rintro (hk | hk)
        · exact hk
        · obtain ⟨l, hl, hlk⟩ := List.mem_map.mp hk
          rw [← hlk]
          exact hsub l hl
    · have hfs : Alf.saveFS dataDir fs listings path
          = some (Alf.readExisting fs path
              ++ Alf.mergeNew (Alf.readExisting fs path)
                  (Alf.routed dataDir listings path)) := by
        simp only [Alf.saveFS]
        rw [if_neg hG, if_neg hnd]
      have hids : Alf.idsAt (Alf.saveFS dataDir fs listings) path
          = Alf.idsAt fs path
            ++ (Alf.mergeNew (Alf.readExisting fs path)
                (Alf.routed dataDir listings path)).map Alf.StoredRecord.id := by
        simp [Alf.idsAt, Alf.readExisting, hfs]
      rw [hids]
      constructor
      · intro k
        rw [List.mem_append, mem_mergeNew_ids]
        constructor
        · rintro (hk | ⟨⟨l, hl, hlk⟩, _⟩)
          · exact Or.inl hk
          · exact Or.inr (List.mem_map.mpr ⟨l, hl, hlk⟩)
        · rintro (hk | hk)
          · exact Or.inl hk
          · by_cases hkE : k ∈ Alf.idsAt fs path
            · exact Or.inl hkE
            · obtain ⟨l, hl, hlk⟩ := List.mem_map.mp hk
              exact Or.inr ⟨⟨l, hl, hlk⟩, hkE⟩
      · intro hex hin
        refine List.Nodup.append hex (mergeNew_ids_nodup _ _ hin) ?_
        intro k hk1 hk2
        rw [mem_mergeNew_ids] at hk2
        exact hk2.2 hk1

/-- C1 counterexample: a single `save` whose input carries two records
with the same identity key "A" (routed to the same destination) writes
both — afterwards the destination holds two records with key "A", so the
claim's no-duplication clause fails as stated. -/
theorem save_dedup_counterexample :
    ¬ (Alf.idsAt (Alf.saveFS "d" Samples.emptyFS [Samples.listA1, Samples.listA2])
        Samples.pathMX).Nodup := by decide

/-- C1 witness: saving two distinct-key records into an empty store
yields key "A" present and a duplicate-free destination. -/
theorem save_dedup_amended_witness :
    (some "A" ∈ Alf.idsAt (Alf.saveFS "d" Samples.emptyFS [Samples.listA1, Samples.listB])
        Samples.pathMX)
    ∧ (Alf.idsAt (Alf.saveFS "d" Samples.emptyFS [Samples.listA1, Samples.listB])
        Samples.pathMX).Nodup := by
  have h := save_dedup_amended "d" Samples.emptyFS [Samples.listA1, Samples.listB]
      Samples.pathMX
  exact ⟨(h.1 (some "A")).mpr (Or.inr (by decide)), h.2 (by decide) (by decide)⟩
